import Mathlib

/-!
Verification of the RAO (response amplitude operator) grid class from
`src/mafredo/rao.py`.  The grid stores an amplitude and a phase for every
(wave heading, angular frequency) pair.  Headings and frequencies are
modelled by rational numbers (the source uses IEEE floats; every claim is
about exact equalities and linear interpolation, which the rationals model
exactly), and the amplitude/phase data by real numbers.  A dataset is a
record of the two coordinate axes, the data channels as functions of the
coordinates, an optional stored `complex_unit` channel, and the `mode` tag.
-/

noncomputable section

namespace Mafredo

/-- Modelled from the spec: the `MotionMode` enumeration from
`mafredo.helpers` (not part of the sources given), listing the six
recognized response components. -/
inductive MotionMode where
  | SURGE
  | SWAY
  | HEAVE
  | ROLL
  | PITCH
  | YAW
  deriving DecidableEq

/-- The kind of Python exception escaping a call: `valueError` models a
`ValueError` raise and `nameError` models an unbound-name `NameError`. -/
inductive PyError where
  | valueError
  | nameError
  deriving DecidableEq

/-- `np.mod x 360`: the floored modulus used on headings. -/
def mod360 (x : ℚ) : ℚ := x - 360 * (⌊x / 360⌋ : ℚ)

/-- Smallest value of a coordinate axis (0 for the empty axis). -/
def listMin : List ℚ → ℚ
  | [] => 0
  | x :: xs => xs.foldl min x

/-- Largest value of a coordinate axis (0 for the empty axis). -/
def listMax : List ℚ → ℚ
  | [] => 0
  | x :: xs => xs.foldl max x

/-- Modelled from the spec: one-dimensional linear interpolation along a
coordinate axis, as performed by the external interpolation routine the
source calls through `Dataset.interp(..., method = linear)`.  The axis is
walked in order; a target between two consecutive axis values is served by
the linear interpolant between the two bracketing samples, and a target
outside the axis range by the boundary sample (the constant-extrapolation
policy of section 4.2 of the spec; in-range behaviour is the standard
linear interpolation and is all the claims exercise). -/
def interp1 {V : Type} [DivisionRing V] (f : ℚ → V) : List ℚ → ℚ → V
  | [], _ => 0
  | [x], _ => f x
  | x0 :: x1 :: rest, t =>
    if t ≤ x0 then f x0
    else if t ≤ x1 then f x0 + (((t - x0) / (x1 - x0) : ℚ) : V) * (f x1 - f x0)
    else interp1 f (x1 :: rest) t

/-- The `Rao` object of `rao.py`: an xarray dataset with coordinate axes
`wave_direction` (degrees) and `omega` (rad/s), data channels `amplitude`
and `phase` addressed by coordinate value, an optional stored
`complex_unit` channel (present only when some call materialised it), and
the `mode` attribute. -/
structure Rao where
  wave_direction : List ℚ
  omega : List ℚ
  amplitude : ℚ → ℚ → ℝ
  phase : ℚ → ℚ → ℝ
  complex_unit : Option (ℚ → ℚ → ℂ)
  mode : Option MotionMode

namespace Rao

/-- `Rao.__init__`: the dummy 2 by 2 all-zero dataset with headings 0 and
180, frequencies 0 and 4, and no mode. -/
def init : Rao where
  wave_direction := [0, 180]
  omega := [0, 4]
  amplitude := fun _ _ => 0
  phase := fun _ _ => 0
  complex_unit := none
  mode := none

/-- `Rao.set_data`: replaces the whole dataset with the provided axes and
channels.  No validation is performed, and the `mode` argument is accepted
but never assigned (the source leaves `self.mode` untouched). -/
def set_data (r : Rao) (directions : List ℚ) (omegas : List ℚ)
    (amplitude : ℚ → ℚ → ℝ) (phase : ℚ → ℚ → ℝ) (_mode : Option MotionMode) : Rao where
  wave_direction := directions
  omega := omegas
  amplitude := amplitude
  phase := phase
  complex_unit := none
  mode := r.mode

/-- `Rao.scale`: multiplies the amplitude channel elementwise by the factor,
raising `ValueError` for a negative factor. -/
def scale (r : Rao) (factor : ℝ) : Except PyError Rao :=
  if factor < 0 then Except.error PyError.valueError
  else Except.ok { r with amplitude := fun d w => r.amplitude d w * factor }

/-- Modelled from the spec: `expand_omega_dim_const` from `mafredo.helpers`
(not part of the sources given).  Any requested frequency below the current
minimum becomes an extra column duplicating the lowest-frequency column;
any above the maximum duplicates the highest-frequency column, so the
expanded axis range covers the requested range. -/
def expand_omega_dim_const (r : Rao) (new_omega : List ℚ) : Rao :=
  let omn := listMin r.omega
  let omx := listMax r.omega
  { r with
    omega := new_omega.filter (fun w => w < omn) ++ r.omega
      ++ new_omega.filter (fun w => omx < w)
    amplitude := fun d w =>
      if w < omn then r.amplitude d omn
      else if omx < w then r.amplitude d omx
      else r.amplitude d w
    phase := fun d w =>
      if w < omn then r.phase d omn
      else if omx < w then r.phase d omx
      else r.phase d w }

/-- `Rao.regrid_omega`: expands the frequency axis to cover the requested
range, converts the phase to the complex-unit channel, linearly
interpolates amplitude and complex unit along the frequency axis at the
requested frequencies (the interpolation routine sorts the source axis
internally), converts the interpolated complex unit back to a phase, and
drops the intermediate channel.  The resulting frequency axis is the
requested list in the order given. -/
def regrid_omega (r : Rao) (new_omega : List ℚ) : Rao :=
  let temp := expand_omega_dim_const r new_omega
  let cu : ℚ → ℚ → ℂ := fun d w => Complex.exp (temp.phase d w * Complex.I)
  let axis := List.insertionSort (fun a b => a ≤ b) temp.omega
  { wave_direction := temp.wave_direction
    omega := new_omega
    amplitude := fun d w => interp1 (fun x => temp.amplitude d x) axis w
    phase := fun d w => (interp1 (fun x => cu d x) axis w).arg
    complex_unit := none
    mode := r.mode }

/-- Modelled from the spec: `expand_direction_to_full_range` from
`mafredo.helpers` (not part of the sources given).  The heading axis is
extended to cover a full period by duplicating the highest-heading column
360 degrees below it and the lowest-heading column 360 degrees above it, so
that linear interpolation never extrapolates across the wrap point (for a
grid with headings 0 and 350 this makes the 0-degree column available as a
virtual column at 360). -/
def expand_direction_to_full_range (r : Rao) : Rao :=
  let dmn := listMin r.wave_direction
  let dmx := listMax r.wave_direction
  { r with
    wave_direction := (dmx - 360) :: r.wave_direction ++ [dmn + 360]
    amplitude := fun d w =>
      if d = dmx - 360 then r.amplitude dmx w
      else if d = dmn + 360 then r.amplitude dmn w
      else r.amplitude d w
    phase := fun d w =>
      if d = dmx - 360 then r.phase dmx w
      else if d = dmn + 360 then r.phase dmn w
      else r.phase d w }

/-- `Rao.regrid_direction`: expands the heading axis to a full period,
converts the phase to the complex-unit channel, linearly interpolates
amplitude and complex unit along the heading axis at the requested
headings, converts the complex unit back to a phase and drops the
intermediate channel. -/
def regrid_direction (r : Rao) (new_headings : List ℚ) : Rao :=
  let expanded := expand_direction_to_full_range r
  let cu : ℚ → ℚ → ℂ := fun d w => Complex.exp (expanded.phase d w * Complex.I)
  let axis := List.insertionSort (fun a b => a ≤ b) expanded.wave_direction
  { wave_direction := new_headings
    omega := expanded.omega
    amplitude := fun d w => interp1 (fun x => expanded.amplitude x w) axis d
    phase := fun d w => (interp1 (fun x => cu x w) axis d).arg
    complex_unit := none
    mode := r.mode }

/-- `Rao.add_direction`: inserts a heading into the grid by regridding the
heading axis to the sorted union, unless the heading is already present. -/
def add_direction (r : Rao) (wd : ℚ) : Rao :=
  if wd ∈ r.wave_direction then r
  else r.regrid_direction
    (List.insertionSort (fun a b => a ≤ b) (r.wave_direction ++ [wd]))

/-- `Rao.add_frequency`: inserts a frequency into the grid by regridding the
frequency axis to the sorted union, unless the frequency is already
present. -/
def add_frequency (r : Rao) (om : ℚ) : Rao :=
  if om ∈ r.omega then r
  else r.regrid_omega
    (List.insertionSort (fun a b => a ≤ b) (r.omega ++ [om]))

/-- `Rao.get_value`: ensures the requested point is on the grid, then reads
the amplitude and, through `self [ complex_unit]` (which materialises the
complex-unit channel on the dataset without removing it afterwards), the
phase unit vector, and returns their product.  The returned pair is the
mutated object together with the complex sample. -/
def get_value (r : Rao) (om : ℚ) (wd : ℚ) : Rao × ℂ :=
  let r1 := r.add_direction wd
  let r2 := r1.add_frequency om
  let amp : ℝ := r2.amplitude wd om
  let r3 : Rao := { r2 with
    complex_unit := some (fun d w => Complex.exp (r2.phase d w * Complex.I)) }
  let cu : ℂ := Complex.exp (r2.phase wd om * Complex.I)
  (r3, cu * (amp : ℂ))

/-- One iteration of the loop in `Rao.add_symmetry_xz`: for the processed
heading, compute its mirror with `np.mod`; skip it when the mirror is among
the directions captured before the loop; otherwise clone the column at the
processed heading onto the mirror heading (every stored channel, the
`phase` channel with the sign flip when the component is antisymmetric) and
append the mirror to the axis. -/
def symStep (orig : List ℚ) (opposite : Bool) (st : Rao) (direction : ℚ) : Rao :=
  let dc := mod360 (-direction)
  if dc ∈ orig then st
  else
    { wave_direction := st.wave_direction ++ [dc]
      omega := st.omega
      amplitude := fun d w => if d = dc then st.amplitude direction w else st.amplitude d w
      phase := fun d w =>
        if d = dc then
          (if opposite then -(st.phase direction w) + Real.pi else st.phase direction w)
        else st.phase d w
      complex_unit := st.complex_unit.map
        (fun f => fun d w => if d = dc then f direction w else f d w)
      mode := st.mode }

/-- The branch of `Rao.add_symmetry_xz` classifying the mode: `SWAY`,
`ROLL` and `YAW` are antisymmetric under heading mirroring (the cloned
column receives the opposite phase), `SURGE`, `HEAVE` and `PITCH` are
symmetric. -/
def symOpp : MotionMode → Bool
  | MotionMode.SWAY | MotionMode.ROLL | MotionMode.YAW => true
  | MotionMode.SURGE | MotionMode.HEAVE | MotionMode.PITCH => false

/-- `Rao.add_symmetry_xz`: determines the sign convention from the mode
(`SWAY`, `ROLL`, `YAW` are antisymmetric; `SURGE`, `HEAVE`, `PITCH`
symmetric), loops over the headings captured before the loop, appending a
mirrored column for each heading whose mirror is absent from that captured
list, then re-sorts the dataset by heading.  When the mode is unset the
error branch evaluates an f-string referring to an unbound name `mode`, so
the call escapes with a `NameError` rather than the intended
`ValueError`. -/
def add_symmetry_xz (r : Rao) : Except PyError Rao :=
  match r.mode with
  | Option.none => Except.error PyError.nameError
  | Option.some m =>
    let opposite : Bool := symOpp m
    let directions := r.wave_direction
    let folded := directions.foldl (symStep directions opposite) r
    Except.ok { folded with
      wave_direction := List.insertionSort (fun a b => a ≤ b) folded.wave_direction }

end Rao

/-- The de-complexified dataset produced by `Rao.to_xarray_nocomplex`: the
same axes with `real` and `imag` channels in place of `amplitude` and
`phase` (any stored complex-unit channel is carried along by the copy). -/
structure NoComplexData where
  wave_direction : List ℚ
  omega : List ℚ
  real : ℚ → ℚ → ℝ
  imag : ℚ → ℚ → ℝ
  complex_unit : Option (ℚ → ℚ → ℂ)

namespace Rao

/-- `Rao.to_xarray_nocomplex`: builds the de-complexified dataset with
`real` and `imag` the real and imaginary parts of amplitude times phase
unit vector.  Reading the complex unit through the item accessor also
materialises that channel on the object itself, so the pair of the mutated
object and the exported dataset is returned. -/
def to_xarray_nocomplex (r : Rao) : Rao × NoComplexData :=
  let a : ℚ → ℚ → ℂ := fun d w =>
    (r.amplitude d w : ℂ) * Complex.exp (r.phase d w * Complex.I)
  let e : NoComplexData :=
    { wave_direction := r.wave_direction
      omega := r.omega
      real := fun d w => (a d w).re
      imag := fun d w => (a d w).im
      complex_unit := r.complex_unit }
  ({ r with complex_unit := some (fun d w => Complex.exp (r.phase d w * Complex.I)) }, e)

/-- `Rao.from_xarray_nocomplex`: reconstructs the grid from the
de-complexified dataset, with amplitude the modulus and phase the angle of
`real + i * imag`, and sets the mode. -/
def from_xarray_nocomplex (a : NoComplexData) (mode : MotionMode) : Rao :=
  let c : ℚ → ℚ → ℂ := fun d w => (a.real d w : ℂ) + (a.imag d w : ℂ) * Complex.I
  { wave_direction := a.wave_direction
    omega := a.omega
    amplitude := fun d w => Complex.abs (c d w)
    phase := fun d w => (c d w).arg
    complex_unit := a.complex_unit
    mode := some mode }

/-- The amplitude-nonnegativity invariant of the data model: the amplitude
channel is nonnegative at every grid point. -/
def AmpNonNeg (r : Rao) : Prop :=
  ∀ d ∈ r.wave_direction, ∀ w ∈ r.omega, 0 ≤ r.amplitude d w

/-- The mirror headings appended by the symmetry loop, in processing
order: one entry per processed heading whose mirror is absent from the
directions captured before the loop. -/
def mirrorsToAdd (orig : List ℚ) : List ℚ → List ℚ
  | [] => []
  | h :: t =>
    if mod360 (-h) ∈ orig then mirrorsToAdd orig t
    else mod360 (-h) :: mirrorsToAdd orig t

end Rao

/-- The concrete ROLL grid of the spec's symmetry scenario: one heading at
30 degrees. -/
def gridC1 : Rao where
  wave_direction := [30]
  omega := [1]
  amplitude := fun _ _ => 2
  phase := fun _ _ => 1
  complex_unit := none
  mode := some MotionMode.ROLL

/-- A well-formed two-heading HEAVE grid used to witness idempotence. -/
def gridC7w : Rao where
  wave_direction := [30]
  omega := [1]
  amplitude := fun _ _ => 1
  phase := fun _ _ => 0
  complex_unit := none
  mode := some MotionMode.HEAVE

/-- A ROLL grid with the single heading written as -30 degrees instead of
its reduced representative 330. -/
def gridC7 : Rao where
  wave_direction := [-30]
  omega := [0]
  amplitude := fun _ _ => 0
  phase := fun _ _ => 0
  complex_unit := none
  mode := some MotionMode.ROLL

/-- The concrete wrap grid: headings 0 and 350, amplitude equal to the
heading, zero phase. -/
def gridC2 : Rao where
  wave_direction := [0, 350]
  omega := [1]
  amplitude := fun d _ => (d : ℝ)
  phase := fun _ _ => 0
  complex_unit := none
  mode := none

/-- A grid whose amplitude is positive everywhere and whose phase lies in
the principal range, used to witness the round trip. -/
def gridC6w : Rao where
  wave_direction := [0]
  omega := [2]
  amplitude := fun _ _ => 2
  phase := fun _ _ => 1
  complex_unit := none
  mode := none

/-- The counterexample grid: amplitude 1 and phase `2 pi`, a phase outside
the principal range of the angle function. -/
def gridC6 : Rao where
  wave_direction := [0]
  omega := [0]
  amplitude := fun _ _ => 1
  phase := fun _ _ => 2 * Real.pi
  complex_unit := none
  mode := none


theorem mod360_nonneg (x : ℚ) : 0 ≤ mod360 x := by
  have h : (⌊x / 360⌋ : ℚ) ≤ x / 360 := Int.floor_le _
  have h360 : (0:ℚ) < 360 := by norm_num
  unfold mod360
  nlinarith [(mul_le_mul_of_nonneg_left h (le_of_lt h360))]

theorem mod360_lt (x : ℚ) : mod360 x < 360 := by
  have h : x / 360 < (⌊x / 360⌋ : ℚ) + 1 := Int.lt_floor_add_one _
  have h360 : (0:ℚ) < 360 := by norm_num
  unfold mod360
  nlinarith [(mul_lt_mul_of_pos_left h h360)]

theorem mod360_eq_self {x : ℚ} (h0 : 0 ≤ x) (h1 : x < 360) : mod360 x = x := by
  have hfl : ⌊x / 360⌋ = 0 := by
    rw [Int.floor_eq_zero_iff]
    constructor
    · positivity
    · rw [div_lt_one (by norm_num : (0:ℚ) < 360)]
      simpa using h1
  unfold mod360
  rw [hfl]
  push_cast
  ring

theorem mod360_neg_of_pos {x : ℚ} (h0 : 0 < x) (h1 : x < 360) :
    mod360 (-x) = 360 - x := by
  have hfl : ⌊(-x) / 360⌋ = -1 := by
    rw [Int.floor_eq_iff]
    push_cast
    constructor
    · rw [le_div_iff (by norm_num : (0:ℚ) < 360)]
      linarith
    · rw [div_lt_iff (by norm_num : (0:ℚ) < 360)]
      linarith
  unfold mod360
  rw [hfl]
  push_cast
  ring

/-- Reflecting a heading in the xz plane twice gives it back, for headings
already reduced to the range 0 to 360. -/
theorem mod360_mirror_mirror {h : ℚ} (h0 : 0 ≤ h) (h1 : h < 360) :
    mod360 (-(mod360 (-h))) = h := by
  rcases eq_or_lt_of_le h0 with hz | hpos
  · rw [← hz]
    have hm0 : mod360 0 = 0 := mod360_eq_self (le_refl 0) (by norm_num)
    simp [hm0]
  · have hm : mod360 (-h) = 360 - h := mod360_neg_of_pos hpos h1
    rw [hm]
    have : -(360 - h) = h - 360 := by ring
    rw [this]
    have hfl : ⌊(h - 360) / 360⌋ = -1 := by
      rw [Int.floor_eq_iff]
      push_cast
      constructor
      · rw [le_div_iff (by norm_num : (0:ℚ) < 360)]
        linarith
      · rw [div_lt_iff (by norm_num : (0:ℚ) < 360)]
        linarith
    unfold mod360
    rw [hfl]
    push_cast
    ring


theorem foldl_min_le_init : ∀ (xs : List ℚ) (a : ℚ), xs.foldl min a ≤ a
  | [], a => le_refl a
  | x :: xs, a => le_trans (foldl_min_le_init xs (min a x)) (min_le_left a x)

theorem foldl_min_le : ∀ (xs : List ℚ) (a x : ℚ), x ∈ xs → xs.foldl min a ≤ x
  | y :: ys, a, x, hx => by
    rcases List.mem_cons.mp hx with h | h
    · subst h
      exact le_trans (foldl_min_le_init ys (min a x)) (min_le_right a x)
    · exact foldl_min_le ys (min a y) x h

theorem foldl_min_mem : ∀ (xs : List ℚ) (a : ℚ), xs.foldl min a = a ∨ xs.foldl min a ∈ xs
  | [], a => Or.inl rfl
  | x :: xs, a => by
    rcases foldl_min_mem xs (min a x) with h | h
    · rcases min_choice a x with hm | hm
      · exact Or.inl (by rw [List.foldl_cons, h, hm])
      · exact Or.inr (by rw [List.foldl_cons, h, hm]; exact List.mem_cons_self x xs)
    · exact Or.inr (List.mem_cons_of_mem x h)

theorem init_le_foldl_max : ∀ (xs : List ℚ) (a : ℚ), a ≤ xs.foldl max a
  | [], a => le_refl a
  | x :: xs, a => le_trans (le_max_left a x) (init_le_foldl_max xs (max a x))

theorem le_foldl_max : ∀ (xs : List ℚ) (a x : ℚ), x ∈ xs → x ≤ xs.foldl max a
  | y :: ys, a, x, hx => by
    rcases List.mem_cons.mp hx with h | h
    · subst h
      exact le_trans (le_max_right a x) (init_le_foldl_max ys (max a x))
    · exact le_foldl_max ys (max a y) x h

theorem foldl_max_mem : ∀ (xs : List ℚ) (a : ℚ), xs.foldl max a = a ∨ xs.foldl max a ∈ xs
  | [], a => Or.inl rfl
  | x :: xs, a => by
    rcases foldl_max_mem xs (max a x) with h | h
    · rcases max_choice a x with hm | hm
      · exact Or.inl (by rw [List.foldl_cons, h, hm])
      · exact Or.inr (by rw [List.foldl_cons, h, hm]; exact List.mem_cons_self x xs)
    · exact Or.inr (List.mem_cons_of_mem x h)

theorem listMin_mem {l : List ℚ} (h : l ≠ []) : listMin l ∈ l := by
  cases l with
  | nil => exact absurd rfl h
  | cons x xs =>
    rcases foldl_min_mem xs x with h0 | h0
    · rw [listMin, h0]; exact List.mem_cons_self x xs
    · rw [listMin]; exact List.mem_cons_of_mem x h0

theorem listMin_le {l : List ℚ} {x : ℚ} (h : x ∈ l) : listMin l ≤ x := by
  cases l with
  | nil => cases h
  | cons y ys =>
    rcases List.mem_cons.mp h with h0 | h0
    · rw [listMin, h0]; exact foldl_min_le_init ys y
    · rw [listMin]; exact foldl_min_le ys y x h0

theorem listMax_mem {l : List ℚ} (h : l ≠ []) : listMax l ∈ l := by
  cases l with
  | nil => exact absurd rfl h
  | cons x xs =>
    rcases foldl_max_mem xs x with h0 | h0
    · rw [listMax, h0]; exact List.mem_cons_self x xs
    · rw [listMax]; exact List.mem_cons_of_mem x h0

theorem le_listMax {l : List ℚ} {x : ℚ} (h : x ∈ l) : x ≤ listMax l := by
  cases l with
  | nil => cases h
  | cons y ys =>
    rcases List.mem_cons.mp h with h0 | h0
    · rw [listMax, h0]; exact init_le_foldl_max ys y
    · rw [listMax]; exact le_foldl_max ys y x h0

theorem listMin_eq {l : List ℚ} {a : ℚ} (hmem : a ∈ l) (hlb : ∀ x ∈ l, a ≤ x) :
    listMin l = a :=
  le_antisymm (listMin_le hmem)
    (hlb _ (listMin_mem (by rintro rfl; cases hmem)))

theorem listMax_eq {l : List ℚ} {a : ℚ} (hmem : a ∈ l) (hub : ∀ x ∈ l, x ≤ a) :
    listMax l = a :=
  le_antisymm (hub _ (listMax_mem (by rintro rfl; cases hmem)))
    (le_listMax hmem)


/-- Linear interpolation of data that is nonnegative at every axis point is
nonnegative everywhere: the interpolant is a convex combination of the two
bracketing samples (or a boundary sample). -/
theorem interp1_nonneg (f : ℚ → ℝ) :
    ∀ (xs : List ℚ) (t : ℚ), (∀ x ∈ xs, 0 ≤ f x) → 0 ≤ interp1 f xs t
  | [], t, _ => by simp [interp1]
  | [x], t, h => by
    simpa [interp1] using h x (List.mem_singleton_self x)
  | x0 :: x1 :: rest, t, h => by
    have h0 : 0 ≤ f x0 := h x0 (List.mem_cons_self _ _)
    have h1 : 0 ≤ f x1 := h x1 (List.mem_cons_of_mem _ (List.mem_cons_self _ _))
    by_cases ht0 : t ≤ x0
    · simpa [interp1, ht0] using h0
    · by_cases ht1 : t ≤ x1
      · have hx01 : x0 < x1 := lt_of_lt_of_le (lt_of_not_le ht0) ht1
        have hwq0 : (0:ℚ) ≤ (t - x0) / (x1 - x0) :=
          div_nonneg (by linarith [lt_of_not_le ht0]) (by linarith)
        have hwq1 : (t - x0) / (x1 - x0) ≤ 1 := by
          rw [div_le_one (by linarith : (0:ℚ) < x1 - x0)]
          linarith
        have hw0 : (0:ℝ) ≤ (((t - x0) / (x1 - x0) : ℚ) : ℝ) := by exact_mod_cast hwq0
        have hw1 : (((t - x0) / (x1 - x0) : ℚ) : ℝ) ≤ 1 := by exact_mod_cast hwq1
        rw [interp1]
        rw [if_neg ht0, if_pos ht1]
        nlinarith [mul_nonneg hw0 h1, mul_nonneg (sub_nonneg.mpr hw1) h0]
      · have hr : 0 ≤ interp1 f (x1 :: rest) t :=
          interp1_nonneg f (x1 :: rest) t (fun x hx => h x (List.mem_cons_of_mem _ hx))
        rw [interp1]
        rw [if_neg ht0, if_neg ht1]
        exact hr

/-- Where linear interpolation lands when the target lies strictly between
the last two axis values: the interpolant between the two final samples. -/
theorem interp1_append {V : Type} [DivisionRing V] (f : ℚ → V) (a b t : ℚ)
    (hat : a < t) (htb : t ≤ b) :
    ∀ xs : List ℚ, (∀ x ∈ xs, x ≤ a) →
      interp1 f (xs ++ [a, b]) t = f a + (((t - a) / (b - a) : ℚ) : V) * (f b - f a)
  | [], _ => by
    rw [List.nil_append, interp1, if_neg (not_le.mpr hat), if_pos htb]
  | [x], hx => by
    have h1 : x ≤ a := hx x (List.mem_singleton_self x)
    rw [List.cons_append, List.nil_append, interp1,
      if_neg (not_le.mpr (lt_of_le_of_lt h1 hat)), if_neg (not_le.mpr hat)]
    rw [interp1, if_neg (not_le.mpr hat), if_pos htb]
  | x :: y :: xs, hx => by
    have h1 : x ≤ a := hx x (List.mem_cons_self _ _)
    have h2 : y ≤ a := hx y (List.mem_cons_of_mem _ (List.mem_cons_self _ _))
    rw [List.cons_append, List.cons_append, interp1,
      if_neg (not_le.mpr (lt_of_le_of_lt h1 hat)),
      if_neg (not_le.mpr (lt_of_le_of_lt h2 hat)), ← List.cons_append]
    exact interp1_append f a b t hat htb (y :: xs)
      (fun z hz => hx z (List.mem_cons_of_mem _ hz))

/-- A sorted duplicate-free list whose elements other than `b` all lie at or
below `a`, with `a` and `b` both present and `a < b`, ends in `[a, b]`. -/
theorem sorted_split (a b : ℚ) :
    ∀ S : List ℚ, S.Sorted (· ≤ ·) → S.Nodup → a ∈ S → b ∈ S → a < b →
      (∀ x ∈ S, x ≤ a ∨ x = b) → ∃ xs, S = xs ++ [a, b] ∧ ∀ x ∈ xs, x ≤ a := by
  intro S
  induction S with
  | nil => intro _ _ ha; cases ha
  | cons c S ih =>
    intro hsort hnd ha hb hab hle
    have hsort' : S.Sorted (· ≤ ·) := (List.sorted_cons.mp hsort).2
    have hcle : ∀ x ∈ S, c ≤ x := (List.sorted_cons.mp hsort).1
    have hnd' : S.Nodup := (List.nodup_cons.mp hnd).2
    have hcnot : c ∉ S := (List.nodup_cons.mp hnd).1
    have hbS : b ∈ S := by
      rcases List.mem_cons.mp hb with h | h
      · exfalso
        rcases List.mem_cons.mp ha with h2 | h2
        · have hab' : a < b := hab
          rw [h, h2] at hab'
          exact lt_irrefl c hab'
        · have hca : c ≤ a := hcle a h2
          rw [← h] at hca
          exact absurd hab (not_lt.mpr hca)
      · exact h
    rcases List.mem_cons.mp ha with hac | haS
    · -- a is the head: the tail must be exactly [b]
      have haS' : a ∉ S := hac ▸ hcnot
      have hall : ∀ x ∈ S, x = b := by
        intro x hx
        rcases hle x (List.mem_cons_of_mem _ hx) with h | h
        · exfalso
          have : a ≤ x := hac ▸ hcle x hx
          have hxa : x = a := le_antisymm h this
          exact haS' (hxa ▸ hx)
        · exact h
      have hS : S = [b] := by
        cases S with
        | nil => cases hbS
        | cons y ys =>
          have hy : y = b := hall y (List.mem_cons_self _ _)
          have hys : ys = [] := by
            cases ys with
            | nil => rfl
            | cons z zs =>
              exfalso
              have hz : z = b := hall z (List.mem_cons_of_mem _ (List.mem_cons_self _ _))
              have : y ∉ z :: zs := (List.nodup_cons.mp hnd').1
              exact this (by rw [hy, ← hz]; exact List.mem_cons_self _ _)
          rw [hy, hys]
      refine ⟨[], ?_, by intro x hx; cases hx⟩
      rw [hS, ← hac]
      rfl
    · -- a is in the tail: recurse
      have hcb : c ≠ b := by
        intro h
        exact hcnot (h ▸ hbS)
      have hca : c ≤ a := by
        rcases hle c (List.mem_cons_self _ _) with h | h
        · exact h
        · exact absurd h hcb
      rcases ih hsort' hnd' haS hbS hab
          (fun x hx => hle x (List.mem_cons_of_mem _ hx)) with ⟨xs, hxs, hxsle⟩
      refine ⟨c :: xs, ?_, ?_⟩
      · rw [List.cons_append, hxs]
      · intro x hx
        rcases List.mem_cons.mp hx with h | h
        · exact h ▸ hca
        · exact hxsle x h


namespace Rao

theorem mem_mirrorsToAdd {orig : List ℚ} :
    ∀ {l : List ℚ} {x : ℚ}, x ∈ mirrorsToAdd orig l ↔
      ∃ h ∈ l, mod360 (-h) ∉ orig ∧ x = mod360 (-h) := by
  intro l
  induction l with
  | nil => intro x; simp [mirrorsToAdd]
  | cons h t ih =>
    intro x
    by_cases hc : mod360 (-h) ∈ orig
    · rw [mirrorsToAdd, if_pos hc]
      constructor
      · intro hx
        rcases ih.mp hx with ⟨h', hh', hn', hx'⟩
        exact ⟨h', List.mem_cons_of_mem _ hh', hn', hx'⟩
      · rintro ⟨h', hh', hn', hx'⟩
        rcases List.mem_cons.mp hh' with he | ht'
        · exact absurd (he ▸ hc) hn'
        · exact ih.mpr ⟨h', ht', hn', hx'⟩
    · rw [mirrorsToAdd, if_neg hc]
      constructor
      · intro hx
        rcases List.mem_cons.mp hx with he | ht'
        · exact ⟨h, List.mem_cons_self _ _, hc, he⟩
        · rcases ih.mp ht' with ⟨h', hh', hn', hx'⟩
          exact ⟨h', List.mem_cons_of_mem _ hh', hn', hx'⟩
      · rintro ⟨h', hh', hn', hx'⟩
        rcases List.mem_cons.mp hh' with he | ht'
        · exact he ▸ hx' ▸ List.mem_cons_self _ _
        · exact List.mem_cons_of_mem _ (ih.mpr ⟨h', ht', hn', hx'⟩)

theorem foldl_symStep_omega (orig : List ℚ) (opp : Bool) :
    ∀ (l : List ℚ) (st : Rao), (l.foldl (symStep orig opp) st).omega = st.omega := by
  intro l
  induction l with
  | nil => intro st; rfl
  | cons h t ih =>
    intro st
    rw [List.foldl_cons, ih]
    by_cases hc : mod360 (-h) ∈ orig
    · simp [symStep, hc]
    · simp [symStep, hc]

theorem foldl_symStep_mode (orig : List ℚ) (opp : Bool) :
    ∀ (l : List ℚ) (st : Rao), (l.foldl (symStep orig opp) st).mode = st.mode := by
  intro l
  induction l with
  | nil => intro st; rfl
  | cons h t ih =>
    intro st
    rw [List.foldl_cons, ih]
    by_cases hc : mod360 (-h) ∈ orig
    · simp [symStep, hc]
    · simp [symStep, hc]

theorem foldl_symStep_directions (orig : List ℚ) (opp : Bool) :
    ∀ (l : List ℚ) (st : Rao),
      (l.foldl (symStep orig opp) st).wave_direction =
        st.wave_direction ++ mirrorsToAdd orig l := by
  intro l
  induction l with
  | nil => intro st; simp [mirrorsToAdd]
  | cons h t ih =>
    intro st
    rw [List.foldl_cons, ih]
    by_cases hc : mod360 (-h) ∈ orig
    · rw [mirrorsToAdd, if_pos hc]
      simp [symStep, hc]
    · rw [mirrorsToAdd, if_neg hc]
      simp [symStep, hc]

theorem foldl_symStep_amp_orig (orig : List ℚ) (opp : Bool) :
    ∀ (l : List ℚ) (st : Rao) (d w : ℚ), d ∈ orig →
      (l.foldl (symStep orig opp) st).amplitude d w = st.amplitude d w := by
  intro l
  induction l with
  | nil => intro st d w _; rfl
  | cons h t ih =>
    intro st d w hd
    rw [List.foldl_cons, ih _ d w hd]
    by_cases hc : mod360 (-h) ∈ orig
    · simp [symStep, hc]
    · have hne : d ≠ mod360 (-h) := fun he => hc (he ▸ hd)
      simp [symStep, hc, hne]

theorem foldl_symStep_phase_orig (orig : List ℚ) (opp : Bool) :
    ∀ (l : List ℚ) (st : Rao) (d w : ℚ), d ∈ orig →
      (l.foldl (symStep orig opp) st).phase d w = st.phase d w := by
  intro l
  induction l with
  | nil => intro st d w _; rfl
  | cons h t ih =>
    intro st d w hd
    rw [List.foldl_cons, ih _ d w hd]
    by_cases hc : mod360 (-h) ∈ orig
    · simp [symStep, hc]
    · have hne : d ≠ mod360 (-h) := fun he => hc (he ▸ hd)
      simp [symStep, hc, hne]

theorem foldl_symStep_untouched (orig : List ℚ) (opp : Bool) :
    ∀ (l : List ℚ) (st : Rao) (c w : ℚ), (∀ h ∈ l, mod360 (-h) ≠ c) →
      (l.foldl (symStep orig opp) st).amplitude c w = st.amplitude c w ∧
      (l.foldl (symStep orig opp) st).phase c w = st.phase c w := by
  intro l
  induction l with
  | nil => intro st c w _; exact ⟨rfl, rfl⟩
  | cons h t ih =>
    intro st c w hno
    have hhc : mod360 (-h) ≠ c := hno h (List.mem_cons_self _ _)
    have hcne : c ≠ mod360 (-h) := fun he => hhc he.symm
    rw [List.foldl_cons]
    rcases ih (symStep orig opp st h) c w
        (fun h' hh' => hno h' (List.mem_cons_of_mem _ hh')) with ⟨ha, hp⟩
    rw [ha, hp]
    by_cases hc : mod360 (-h) ∈ orig
    · constructor <;> simp [symStep, hc]
    · constructor <;> simp [symStep, hc, hcne]

theorem foldl_symStep_mirror (orig : List ℚ) (opp : Bool) :
    ∀ (l : List ℚ) (st : Rao) (h0 w : ℚ), h0 ∈ l → l.Nodup →
      (∀ h' ∈ l, mod360 (-h') = mod360 (-h0) → h' = h0) →
      mod360 (-h0) ∉ orig → h0 ∈ orig →
      (l.foldl (symStep orig opp) st).amplitude (mod360 (-h0)) w = st.amplitude h0 w ∧
      (l.foldl (symStep orig opp) st).phase (mod360 (-h0)) w =
        (if opp then -(st.phase h0 w) + Real.pi else st.phase h0 w) := by
  intro l
  induction l with
  | nil => intro st h0 w hh; cases hh
  | cons h t ih =>
    intro st h0 w hh hnd hinj hnotin h0orig
    rw [List.foldl_cons]
    by_cases hh0 : h = h0
    · -- the processed heading is the source heading: the clone happens now
      subst hh0
      have hnotint : ∀ h' ∈ t, mod360 (-h') ≠ mod360 (-h) := by
        intro h' hh' he
        have : h' = h := hinj h' (List.mem_cons_of_mem _ hh') he
        exact (List.nodup_cons.mp hnd).1 (this ▸ hh')
      rcases foldl_symStep_untouched orig opp t (symStep orig opp st h)
          (mod360 (-h)) w hnotint with ⟨ha, hp⟩
      rw [ha, hp]
      constructor <;> simp [symStep, hnotin]
    · -- a different heading is processed first: the source column survives it
      have hht : h0 ∈ t := by
        rcases List.mem_cons.mp hh with he | ht'
        · exact absurd he.symm hh0
        · exact ht'
      rcases ih (symStep orig opp st h) h0 w hht (List.nodup_cons.mp hnd).2
          (fun h' hh' => hinj h' (List.mem_cons_of_mem _ hh')) hnotin h0orig with ⟨ha, hp⟩
      rw [ha, hp]
      by_cases hc : mod360 (-h) ∈ orig
      · constructor <;> simp [symStep, hc]
      · have hne : h0 ≠ mod360 (-h) := fun he => hc (he ▸ h0orig)
        constructor <;> simp [symStep, hc, hne]

theorem foldl_symStep_skip (orig : List ℚ) (opp : Bool) :
    ∀ (l : List ℚ) (st : Rao), (∀ h ∈ l, mod360 (-h) ∈ orig) →
      l.foldl (symStep orig opp) st = st := by
  intro l
  induction l with
  | nil => intro st _; rfl
  | cons h t ih =>
    intro st hall
    have hc : mod360 (-h) ∈ orig := hall h (List.mem_cons_self _ _)
    rw [List.foldl_cons, symStep, if_pos hc]
    exact ih st (fun h' hh' => hall h' (List.mem_cons_of_mem _ hh'))


end Rao


/-! ## Claims -/

/-- C10: a freshly constructed `Rao` object is a dense 2 by 2 grid with
heading axis exactly `[0, 180]`, frequency axis exactly `[0, 4]`, every
amplitude and phase equal to 0, and an unset component tag. -/
theorem C10_fresh_rao_is_dummy_grid :
    Rao.init.wave_direction = [0, 180] ∧ Rao.init.omega = [0, 4] ∧
    (∀ d w : ℚ, Rao.init.amplitude d w = 0 ∧ Rao.init.phase d w = 0) ∧
    Rao.init.mode = Option.none :=
  ⟨rfl, rfl, fun _ _ => ⟨rfl, rfl⟩, rfl⟩

/-- C5: `scale` raises a domain error exactly when the factor is negative,
and for a nonnegative factor multiplies every amplitude entry by exactly
the factor, leaving the phase channel and both axes unchanged (the
resulting object differs from the original only in the amplitude
channel). -/
theorem C5_scale_negative_iff_error (r : Rao) (f : ℝ) :
    ((∃ e, r.scale f = Except.error e) ↔ f < 0) ∧
    (f < 0 → r.scale f = Except.error PyError.valueError) ∧
    (0 ≤ f → r.scale f =
      Except.ok { r with amplitude := fun d w => r.amplitude d w * f }) := by
  refine ⟨⟨?_, ?_⟩, ?_, ?_⟩
  · rintro ⟨e, he⟩
    by_contra hf
    rw [Rao.scale, if_neg hf] at he
    cases he
  · intro hf
    exact ⟨PyError.valueError, by rw [Rao.scale, if_pos hf]⟩
  · intro hf
    rw [Rao.scale, if_pos hf]
  · intro hf
    rw [Rao.scale, if_neg (not_lt.mpr hf)]

/-- Witness for C5 at a concrete grid and factor. -/
theorem C5_witness :
    Rao.init.scale 2 =
      Except.ok { Rao.init with amplitude := fun d w => Rao.init.amplitude d w * 2 } :=
  (C5_scale_negative_iff_error Rao.init 2).2.2 (by norm_num)

/-- C4: requesting symmetry on a grid whose mode is unset escapes with a
`NameError` (the error branch formats an unbound name), not with the
invalid-configuration `ValueError` the claim describes; the grid itself is
not modified since the call never returns a grid. -/
theorem C4_unset_mode_escapes_with_nameerror (r : Rao) (h : r.mode = Option.none) :
    r.add_symmetry_xz = Except.error PyError.nameError := by
  rw [Rao.add_symmetry_xz, h]

/-- Witness for C4: the fresh grid has no mode, and symmetry on it fails
with the unbound-name error. -/
theorem C4_witness :
    Rao.init.add_symmetry_xz = Except.error PyError.nameError :=
  C4_unset_mode_escapes_with_nameerror Rao.init rfl

/-- C8 (amended): `regrid_omega` produces a grid whose frequency axis is
exactly the requested list in the order given (not sorted by the method
itself), with the heading axis unchanged. -/
theorem C8_regrid_omega_axis_as_given (r : Rao) (new_omega : List ℚ) :
    (r.regrid_omega new_omega).omega = new_omega ∧
    (r.regrid_omega new_omega).wave_direction = r.wave_direction :=
  ⟨rfl, rfl⟩

/-- Counterexample for C8 as stated: regridding the fresh grid to the
unsorted target `[4, 0]` leaves the frequency axis in the given order,
which is not the ascending sort `[0, 4]` the claim requires. -/
theorem C8_counterexample :
    (Rao.init.regrid_omega [4, 0]).omega = [4, 0] ∧
    (Rao.init.regrid_omega [4, 0]).omega ≠ [0, 4] :=
  ⟨rfl, by decide⟩

/-- C3 (amended): for a heading and frequency already present on the axes,
`get_value` returns `amplitude * exp(i * phase)` and performs no
regridding — but it does leave the materialised complex-unit channel
stored on the grid (the only observable mutation). -/
theorem C3_get_value_exact_point (r : Rao) (om wd : ℚ)
    (hd : wd ∈ r.wave_direction) (hw : om ∈ r.omega) :
    (r.get_value om wd).2 =
      (r.amplitude wd om : ℂ) * Complex.exp (r.phase wd om * Complex.I) ∧
    (r.get_value om wd).1 =
      { r with complex_unit := some (fun d w => Complex.exp (r.phase d w * Complex.I)) } := by
  have h1 : r.add_direction wd = r := by rw [Rao.add_direction, if_pos hd]
  have h2 : r.add_frequency om = r := by rw [Rao.add_frequency, if_pos hw]
  constructor
  · show Complex.exp (((r.add_direction wd).add_frequency om).phase wd om * Complex.I) *
      (((r.add_direction wd).add_frequency om).amplitude wd om : ℂ) = _
    rw [h1, h2, mul_comm]
  · show ({ (r.add_direction wd).add_frequency om with
      complex_unit := some (fun d w =>
        Complex.exp (((r.add_direction wd).add_frequency om).phase d w * Complex.I)) } : Rao) = _
    rw [h1, h2]

/-- Witness for C3 at the fresh grid and one of its exact grid points. -/
theorem C3_witness :
    (Rao.init.get_value 0 180).2 =
      (Rao.init.amplitude 180 0 : ℂ) * Complex.exp (Rao.init.phase 180 0 * Complex.I) ∧
    (Rao.init.get_value 0 180).1 =
      { Rao.init with
        complex_unit := some (fun d w => Complex.exp (Rao.init.phase d w * Complex.I)) } :=
  C3_get_value_exact_point Rao.init 0 180 (by decide) (by decide)

/-- Counterexample for C3 as stated: after an exact-point `get_value` the
derived phase-vector channel does remain stored on the grid. -/
theorem C3_counterexample :
    ((Rao.init.get_value 0 0).1.complex_unit).isSome = true := rfl

/-- Applying symmetry on a grid with a recognized mode succeeds and yields
the folded dataset re-sorted by heading. -/
theorem add_symmetry_xz_ok (r : Rao) (m : MotionMode) (hm : r.mode = Option.some m) :
    r.add_symmetry_xz = Except.ok
      { r.wave_direction.foldl (Rao.symStep r.wave_direction (Rao.symOpp m)) r with
        wave_direction := List.insertionSort (fun a b => a ≤ b)
          (r.wave_direction.foldl (Rao.symStep r.wave_direction (Rao.symOpp m)) r).wave_direction } := by
  rw [Rao.add_symmetry_xz, hm]

/-- On headings reduced to the range 0 to 360, two headings with the same
mirror are equal. -/
theorem mirror_inj {l : List ℚ} (hrange : ∀ d ∈ l, 0 ≤ d ∧ d < 360)
    {h' h0 : ℚ} (hh' : h' ∈ l) (hh0 : h0 ∈ l)
    (he : mod360 (-h') = mod360 (-h0)) : h' = h0 := by
  have r1 := hrange h' hh'
  have r2 := hrange h0 hh0
  have := congrArg (fun x => mod360 (-x)) he
  simp only at this
  rw [mod360_mirror_mirror r1.1 r1.2, mod360_mirror_mirror r2.1 r2.2] at this
  exact this

/-- C1: for a grid carrying a recognized component whose headings are
reduced representatives (distinct values in the range 0 to 360, as the data
model requires), every heading whose mirror is absent gets a mirrored
column: same amplitude, and phase congruent to `-phase + pi` modulo `2 pi`
for the antisymmetric components `SWAY`, `ROLL`, `YAW`, identical phase for
the symmetric components `SURGE`, `HEAVE`, `PITCH`. -/
theorem C1_symmetry_sign_convention (r : Rao) (m : MotionMode) (h0 w : ℚ)
    (hm : r.mode = Option.some m)
    (hrange : ∀ d ∈ r.wave_direction, 0 ≤ d ∧ d < 360)
    (hnd : r.wave_direction.Nodup)
    (hmem : h0 ∈ r.wave_direction)
    (hnotin : mod360 (-h0) ∉ r.wave_direction) :
    ∃ r', r.add_symmetry_xz = Except.ok r' ∧
      mod360 (-h0) ∈ r'.wave_direction ∧
      r'.amplitude (mod360 (-h0)) w = r.amplitude h0 w ∧
      ((m = MotionMode.SWAY ∨ m = MotionMode.ROLL ∨ m = MotionMode.YAW) →
        ∃ k : ℤ, r'.phase (mod360 (-h0)) w =
          -(r.phase h0 w) + Real.pi + 2 * Real.pi * k) ∧
      ((m = MotionMode.SURGE ∨ m = MotionMode.HEAVE ∨ m = MotionMode.PITCH) →
        r'.phase (mod360 (-h0)) w = r.phase h0 w) := by
  have hinj : ∀ h' ∈ r.wave_direction, mod360 (-h') = mod360 (-h0) → h' = h0 :=
    fun h' hh' he => mirror_inj hrange hh' hmem he
  rcases Rao.foldl_symStep_mirror r.wave_direction (Rao.symOpp m) r.wave_direction r h0 w
    hmem hnd hinj hnotin hmem with ⟨hamp, hph⟩
  refine ⟨_, add_symmetry_xz_ok r m hm, ?_, ?_, ?_, ?_⟩
  · show mod360 (-h0) ∈ List.insertionSort (fun a b => a ≤ b)
      (r.wave_direction.foldl (Rao.symStep r.wave_direction (Rao.symOpp m)) r).wave_direction
    rw [(List.perm_insertionSort (fun a b => a ≤ b) _).mem_iff,
      Rao.foldl_symStep_directions]
    exact List.mem_append_right _
      (Rao.mem_mirrorsToAdd.mpr ⟨h0, hmem, hnotin, rfl⟩)
  · exact hamp
  · intro hanti
    have hopp : Rao.symOpp m = true := by
      rcases hanti with h | h | h <;> rw [h] <;> rfl
    rw [hph, hopp]
    exact ⟨0, by simp⟩
  · intro hsym
    have hopp : Rao.symOpp m = false := by
      rcases hsym with h | h | h <;> rw [h] <;> rfl
    rw [hph, hopp]
    simp

/-- Witness for C1: applying symmetry to the single-heading ROLL grid adds
the mirror heading with the same amplitude and the flipped phase. -/
theorem C1_witness :
    ∃ r', gridC1.add_symmetry_xz = Except.ok r' ∧
      mod360 (-30) ∈ r'.wave_direction ∧
      r'.amplitude (mod360 (-30)) 1 = gridC1.amplitude 30 1 ∧
      ∃ k : ℤ, r'.phase (mod360 (-30)) 1 =
        -(gridC1.phase 30 1) + Real.pi + 2 * Real.pi * k := by
  rcases C1_symmetry_sign_convention gridC1 MotionMode.ROLL 30 1 rfl
      (by decide) (by decide) (by decide) (by norm_num [mod360, gridC1]) with
    ⟨r', hok, hmem, hamp, hanti, _⟩
  exact ⟨r', hok, hmem, hamp, hanti (Or.inr (Or.inl rfl))⟩

/-- A grid with a recognized mode whose heading axis is sorted and closed
under mirroring is a fixed point of the symmetry operation: the loop adds
nothing and the re-sort changes nothing. -/
theorem add_symmetry_xz_fixed (r1 : Rao) (m : MotionMode)
    (hm : r1.mode = Option.some m)
    (hsorted : List.Sorted (fun a b : ℚ => a ≤ b) r1.wave_direction)
    (hclosed : ∀ d ∈ r1.wave_direction, mod360 (-d) ∈ r1.wave_direction) :
    r1.add_symmetry_xz = Except.ok r1 := by
  rw [add_symmetry_xz_ok r1 m hm,
    Rao.foldl_symStep_skip r1.wave_direction (Rao.symOpp m) r1.wave_direction r1 hclosed,
    List.Sorted.insertionSort_eq hsorted]

/-- C7 (amended): on a grid with a recognized component whose headings are
reduced to the range 0 to 360, applying the symmetry expansion twice gives
the same grid as applying it once: every heading of the once-expanded grid
already has its mirror, so the second pass adds no columns and changes no
value. -/
theorem C7_symmetry_idempotent (r : Rao) (m : MotionMode)
    (hm : r.mode = Option.some m)
    (hrange : ∀ d ∈ r.wave_direction, 0 ≤ d ∧ d < 360) :
    ∃ r1, r.add_symmetry_xz = Except.ok r1 ∧ r1.add_symmetry_xz = Except.ok r1 := by
  refine ⟨_, add_symmetry_xz_ok r m hm, ?_⟩
  apply add_symmetry_xz_fixed _ m
  · show (r.wave_direction.foldl (Rao.symStep r.wave_direction (Rao.symOpp m)) r).mode =
      Option.some m
    rw [Rao.foldl_symStep_mode]
    exact hm
  · show List.Sorted (fun a b : ℚ => a ≤ b) (List.insertionSort (fun a b => a ≤ b)
      (r.wave_direction.foldl (Rao.symStep r.wave_direction (Rao.symOpp m)) r).wave_direction)
    exact List.sorted_insertionSort _ _
  · intro d hd
    have hmem : ∀ x : ℚ, (x ∈ List.insertionSort (fun a b => a ≤ b)
        (r.wave_direction.foldl (Rao.symStep r.wave_direction (Rao.symOpp m)) r).wave_direction) ↔
        x ∈ r.wave_direction ++ Rao.mirrorsToAdd r.wave_direction r.wave_direction := by
      intro x
      rw [(List.perm_insertionSort (fun a b => a ≤ b) _).mem_iff,
        Rao.foldl_symStep_directions]
    have hd' : d ∈ r.wave_direction ++ Rao.mirrorsToAdd r.wave_direction r.wave_direction :=
      (hmem d).mp hd
    show mod360 (-d) ∈ List.insertionSort (fun a b => a ≤ b)
      (r.wave_direction.foldl (Rao.symStep r.wave_direction (Rao.symOpp m)) r).wave_direction
    rw [hmem]
    rcases List.mem_append.mp hd' with hdir | hmir
    · by_cases hc : mod360 (-d) ∈ r.wave_direction
      · exact List.mem_append_left _ hc
      · exact List.mem_append_right _ (Rao.mem_mirrorsToAdd.mpr ⟨d, hdir, hc, rfl⟩)
    · rcases Rao.mem_mirrorsToAdd.mp hmir with ⟨h, hh, _, hx⟩
      have hr := hrange h hh
      rw [hx, mod360_mirror_mirror hr.1 hr.2]
      exact List.mem_append_left _ hh

/-- Witness for C7 on a concrete grid with a reduced heading. -/
theorem C7_witness :
    ∃ r1, gridC7w.add_symmetry_xz = Except.ok r1 ∧ r1.add_symmetry_xz = Except.ok r1 :=
  C7_symmetry_idempotent gridC7w MotionMode.HEAVE rfl (by decide)

/-- Counterexample for C7 as stated: on the grid with heading -30 the
first symmetry pass adds heading 30, and the second pass adds heading 330
(the mirror of 30, which is nowhere on the axis because -30 is not a
reduced representative), so applying the operation twice does not give the
grid obtained by applying it once. -/
theorem C7_counterexample :
    Except.map Rao.wave_direction gridC7.add_symmetry_xz = Except.ok [-30, 30] ∧
    Except.map Rao.wave_direction (Except.bind gridC7.add_symmetry_xz Rao.add_symmetry_xz) =
      Except.ok [-30, 30, 330] ∧
    ([-30, 30, 330] : List ℚ) ≠ [-30, 30] := by
  have em1 : mod360 (-(-30:ℚ)) = 30 := by norm_num [mod360]
  have em2 : mod360 (-(30:ℚ)) = 330 := by norm_num [mod360]
  have hM1 : Rao.mirrorsToAdd [-30] [-30] = [30] := by
    simp only [Rao.mirrorsToAdd, em1]
    rw [if_neg (by decide : ¬((30:ℚ) ∈ ([-30] : List ℚ)))]
  have hM2 : Rao.mirrorsToAdd [-30, 30] [-30, 30] = [330] := by
    simp only [Rao.mirrorsToAdd, em1, em2]
    rw [if_pos (by decide : (30:ℚ) ∈ ([-30, 30] : List ℚ)),
      if_neg (by decide : ¬((330:ℚ) ∈ ([-30, 30] : List ℚ)))]
  have hF1wd : (gridC7.wave_direction.foldl
      (Rao.symStep gridC7.wave_direction (Rao.symOpp MotionMode.ROLL)) gridC7).wave_direction =
      [-30, 30] := by
    rw [Rao.foldl_symStep_directions]
    show ([-30] : List ℚ) ++ Rao.mirrorsToAdd [-30] [-30] = [-30, 30]
    rw [hM1]
    rfl
  have hok1 := add_symmetry_xz_ok gridC7 MotionMode.ROLL rfl
  have hr1wd : ∀ r1, gridC7.add_symmetry_xz = Except.ok r1 →
      r1.wave_direction = [-30, 30] := by
    intro r1 h
    rw [hok1] at h
    injection h with h'
    rw [← h']
    show List.insertionSort (fun a b => a ≤ b)
      (gridC7.wave_direction.foldl
        (Rao.symStep gridC7.wave_direction (Rao.symOpp MotionMode.ROLL)) gridC7).wave_direction =
      [-30, 30]
    rw [hF1wd]
    exact (by decide : List.insertionSort (fun a b : ℚ => a ≤ b) [-30, 30] = [-30, 30])
  have hr1mode : ∀ r1, gridC7.add_symmetry_xz = Except.ok r1 →
      r1.mode = Option.some MotionMode.ROLL := by
    intro r1 h
    rw [hok1] at h
    injection h with h'
    rw [← h']
    show (gridC7.wave_direction.foldl
      (Rao.symStep gridC7.wave_direction (Rao.symOpp MotionMode.ROLL)) gridC7).mode = _
    rw [Rao.foldl_symStep_mode]
    rfl
  have key : ∀ r1 : Rao, gridC7.add_symmetry_xz = Except.ok r1 →
      Except.map Rao.wave_direction r1.add_symmetry_xz = Except.ok [-30, 30, 330] := by
    intro r1 h
    rw [add_symmetry_xz_ok r1 MotionMode.ROLL (hr1mode r1 h)]
    show Except.ok (List.insertionSort (fun a b => a ≤ b)
      (r1.wave_direction.foldl
        (Rao.symStep r1.wave_direction (Rao.symOpp MotionMode.ROLL)) r1).wave_direction) =
      Except.ok ([-30, 30, 330] : List ℚ)
    rw [Rao.foldl_symStep_directions, hr1wd r1 h, hM2]
    rw [show List.insertionSort (fun a b : ℚ => a ≤ b) ([-30, 30] ++ [330]) = [-30, 30, 330]
      from by decide]
  refine ⟨?_, ?_, by decide⟩
  · rw [hok1]
    show Except.ok (List.insertionSort (fun a b => a ≤ b)
      (gridC7.wave_direction.foldl
        (Rao.symStep gridC7.wave_direction (Rao.symOpp MotionMode.ROLL)) gridC7).wave_direction) =
      Except.ok ([-30, 30] : List ℚ)
    rw [hF1wd]
    rw [show List.insertionSort (fun a b : ℚ => a ≤ b) [-30, 30] = [-30, 30] from by decide]
  · obtain ⟨r1, hr1⟩ : ∃ r1, gridC7.add_symmetry_xz = Except.ok r1 := ⟨_, hok1⟩
    rw [hr1]
    show Except.map Rao.wave_direction r1.add_symmetry_xz = Except.ok ([-30, 30, 330] : List ℚ)
    exact key r1 hr1

/-- C2: on a grid whose headings are distinct values between 0 and 350 with
both 0 and 350 present (so 350 is the last column before the wrap point and
0 the first after it), regridding the heading axis to targets containing
359 interpolates at 359 between the column at 350 and the virtual duplicate
of the 0-degree column at 360: the amplitude is the linear interpolant with
weights 1/10 and 9/10, and the phase is the angle of the same interpolant
of the two phase unit vectors, so the value is defined across the wrap. -/
theorem C2_heading_wrap_interpolation (r : Rao) (ts : List ℚ) (w : ℚ)
    (h0 : (0:ℚ) ∈ r.wave_direction) (h350 : (350:ℚ) ∈ r.wave_direction)
    (hrange : ∀ d ∈ r.wave_direction, 0 ≤ d ∧ d ≤ 350)
    (hnd : r.wave_direction.Nodup)
    (hts : (359:ℚ) ∈ ts) :
    (r.regrid_direction ts).wave_direction = ts ∧
    (359:ℚ) ∈ (r.regrid_direction ts).wave_direction ∧
    (r.regrid_direction ts).amplitude 359 w =
      (1/10) * r.amplitude 350 w + (9/10) * r.amplitude 0 w ∧
    (r.regrid_direction ts).phase 359 w =
      ((1/10 : ℂ) * Complex.exp ((r.phase 350 w : ℂ) * Complex.I) +
        (9/10 : ℂ) * Complex.exp ((r.phase 0 w : ℂ) * Complex.I)).arg := by
  have hmn : listMin r.wave_direction = 0 := listMin_eq h0 (fun x hx => (hrange x hx).1)
  have hmx : listMax r.wave_direction = 350 := listMax_eq h350 (fun x hx => (hrange x hx).2)
  have hEwd : (Rao.expand_direction_to_full_range r).wave_direction =
      (-10) :: r.wave_direction ++ [360] := by
    show (listMax r.wave_direction - 360) :: r.wave_direction ++
      [listMin r.wave_direction + 360] = _
    rw [hmn, hmx]
    norm_num
  have hEamp : ∀ x, (Rao.expand_direction_to_full_range r).amplitude x w =
      (if x = -10 then r.amplitude 350 w else if x = 360 then r.amplitude 0 w
        else r.amplitude x w) := by
    intro x
    show (if x = listMax r.wave_direction - 360 then r.amplitude (listMax r.wave_direction) w
      else if x = listMin r.wave_direction + 360 then r.amplitude (listMin r.wave_direction) w
      else r.amplitude x w) = _
    rw [hmn, hmx]
    norm_num
  have hEph : ∀ x, (Rao.expand_direction_to_full_range r).phase x w =
      (if x = -10 then r.phase 350 w else if x = 360 then r.phase 0 w
        else r.phase x w) := by
    intro x
    show (if x = listMax r.wave_direction - 360 then r.phase (listMax r.wave_direction) w
      else if x = listMin r.wave_direction + 360 then r.phase (listMin r.wave_direction) w
      else r.phase x w) = _
    rw [hmn, hmx]
    norm_num
  set A := List.insertionSort (fun a b => a ≤ b)
    (Rao.expand_direction_to_full_range r).wave_direction with hA
  have hperm : A.Perm ((-10) :: r.wave_direction ++ [360]) := by
    have h := List.perm_insertionSort (fun a b : ℚ => a ≤ b)
      (Rao.expand_direction_to_full_range r).wave_direction
    nth_rewrite 2 [hEwd] at h
    exact h
  have hsorted : A.Sorted (fun a b : ℚ => a ≤ b) := List.sorted_insertionSort _ _
  have hndE : (((-10):ℚ) :: r.wave_direction ++ [360]).Nodup := by
    rw [List.nodup_append]
    refine ⟨?_, List.nodup_singleton _, ?_⟩
    · rw [List.nodup_cons]
      refine ⟨?_, hnd⟩
      intro hmem
      have := (hrange _ hmem).1
      norm_num at this
    · intro a ha hb
      have h' : a = 360 := List.mem_singleton.mp hb
      rcases List.mem_cons.mp ha with h | h
      · rw [h'] at h
        norm_num at h
      · have := (hrange a h).2
        rw [h'] at this
        norm_num at this
  have hAnd : A.Nodup := hperm.nodup_iff.mpr hndE
  have h350A : (350:ℚ) ∈ A :=
    hperm.mem_iff.mpr (List.mem_append_left _ (List.mem_cons_of_mem _ h350))
  have h360A : (360:ℚ) ∈ A :=
    hperm.mem_iff.mpr (List.mem_append_right _ (List.mem_singleton_self _))
  have hallA : ∀ x ∈ A, x ≤ 350 ∨ x = 360 := by
    intro x hx
    rcases List.mem_append.mp (hperm.mem_iff.mp hx) with h | h
    · rcases List.mem_cons.mp h with h | h
      · left
        rw [h]
        norm_num
      · exact Or.inl (hrange x h).2
    · exact Or.inr (List.mem_singleton.mp h)
  rcases sorted_split 350 360 A hsorted hAnd h350A h360A (by norm_num) hallA with
    ⟨xs, hAeq, hxsle⟩
  have hw : ((359 - 350 : ℚ) / (360 - 350) : ℚ) = 9/10 := by norm_num
  refine ⟨rfl, hts, ?_, ?_⟩
  · have h1 : (r.regrid_direction ts).amplitude 359 w =
        interp1 (fun x => (Rao.expand_direction_to_full_range r).amplitude x w) A 359 := rfl
    rw [h1, hAeq,
      interp1_append (fun x => (Rao.expand_direction_to_full_range r).amplitude x w)
        350 360 359 (by norm_num) (by norm_num) xs hxsle]
    simp only [hEamp]
    norm_num
    ring
  · have h1 : (r.regrid_direction ts).phase 359 w =
        (interp1 (fun x => Complex.exp
          (((Rao.expand_direction_to_full_range r).phase x w : ℂ) * Complex.I)) A 359).arg := rfl
    rw [h1, hAeq,
      interp1_append (fun x => Complex.exp
        (((Rao.expand_direction_to_full_range r).phase x w : ℂ) * Complex.I))
        350 360 359 (by norm_num) (by norm_num) xs hxsle]
    have hp350 : (Rao.expand_direction_to_full_range r).phase 350 w = r.phase 350 w := by
      rw [hEph]
      norm_num
    have hp360 : (Rao.expand_direction_to_full_range r).phase 360 w = r.phase 0 w := by
      rw [hEph]
      norm_num
    simp only [hp350, hp360]
    rw [hw]
    congr 1
    push_cast
    ring

/-- Witness for C2 on the concrete wrap grid regridded to the single
heading 359. -/
theorem C2_witness :
    (gridC2.regrid_direction [359]).wave_direction = [359] ∧
    (359:ℚ) ∈ (gridC2.regrid_direction [359]).wave_direction ∧
    (gridC2.regrid_direction [359]).amplitude 359 1 =
      (1/10) * gridC2.amplitude 350 1 + (9/10) * gridC2.amplitude 0 1 ∧
    (gridC2.regrid_direction [359]).phase 359 1 =
      ((1/10 : ℂ) * Complex.exp ((gridC2.phase 350 1 : ℂ) * Complex.I) +
        (9/10 : ℂ) * Complex.exp ((gridC2.phase 0 1 : ℂ) * Complex.I)).arg :=
  C2_heading_wrap_interpolation gridC2 [359] 1 (by decide) (by decide)
    (by decide) (by decide) (by decide)

/-- C6 (amended): the de-complexified round trip keeps both axes, restores
every amplitude exactly wherever the amplitude is nonnegative (the data
model invariant), and restores the phase only up to a multiple of `2 pi`
(at points of positive amplitude): the reconstruction goes through the
principal-value angle, so a phase outside the principal range comes back
as a different representative. -/
theorem C6_nocomplex_roundtrip (r : Rao) (m : MotionMode) (d w : ℚ)
    (hnn : 0 ≤ r.amplitude d w) :
    (Rao.from_xarray_nocomplex (r.to_xarray_nocomplex).2 m).wave_direction =
      r.wave_direction ∧
    (Rao.from_xarray_nocomplex (r.to_xarray_nocomplex).2 m).omega = r.omega ∧
    (Rao.from_xarray_nocomplex (r.to_xarray_nocomplex).2 m).amplitude d w =
      r.amplitude d w ∧
    (0 < r.amplitude d w →
      ∃ k : ℤ, (Rao.from_xarray_nocomplex (r.to_xarray_nocomplex).2 m).phase d w =
        r.phase d w + 2 * Real.pi * k) := by
  have hamp : (Rao.from_xarray_nocomplex (r.to_xarray_nocomplex).2 m).amplitude d w =
      Complex.abs ((r.amplitude d w : ℂ) * Complex.exp ((r.phase d w : ℂ) * Complex.I)) := by
    show Complex.abs
      ((((r.amplitude d w : ℂ) * Complex.exp ((r.phase d w : ℂ) * Complex.I)).re : ℂ) +
        (((r.amplitude d w : ℂ) * Complex.exp ((r.phase d w : ℂ) * Complex.I)).im : ℂ) *
          Complex.I) = _
    rw [Complex.re_add_im]
  have hph : (Rao.from_xarray_nocomplex (r.to_xarray_nocomplex).2 m).phase d w =
      Complex.arg ((r.amplitude d w : ℂ) * Complex.exp ((r.phase d w : ℂ) * Complex.I)) := by
    show Complex.arg
      ((((r.amplitude d w : ℂ) * Complex.exp ((r.phase d w : ℂ) * Complex.I)).re : ℂ) +
        (((r.amplitude d w : ℂ) * Complex.exp ((r.phase d w : ℂ) * Complex.I)).im : ℂ) *
          Complex.I) = _
    rw [Complex.re_add_im]
  have habs : Complex.abs ((r.amplitude d w : ℂ) *
      Complex.exp ((r.phase d w : ℂ) * Complex.I)) = r.amplitude d w := by
    rw [map_mul, Complex.abs_ofReal, Complex.abs_exp_ofReal_mul_I, abs_of_nonneg hnn, mul_one]
  refine ⟨rfl, rfl, by rw [hamp, habs], ?_⟩
  intro hpos
  rw [hph, Complex.arg_real_mul _ hpos]
  have habs1 : Complex.abs (Complex.exp ((r.phase d w : ℂ) * Complex.I)) = 1 :=
    Complex.abs_exp_ofReal_mul_I _
  have h1 : Complex.exp (((Complex.exp ((r.phase d w : ℂ) * Complex.I)).arg : ℂ) *
      Complex.I) = Complex.exp ((r.phase d w : ℂ) * Complex.I) := by
    have h2 := Complex.abs_mul_exp_arg_mul_I
      (Complex.exp ((r.phase d w : ℂ) * Complex.I))
    rw [habs1] at h2
    simpa using h2
  rcases Complex.exp_eq_exp_iff_exists_int.mp h1 with ⟨n, hn⟩
  refine ⟨n, ?_⟩
  have hn' : (((Complex.exp ((r.phase d w : ℂ) * Complex.I)).arg : ℂ)) =
      (r.phase d w : ℂ) + (n : ℂ) * (2 * (Real.pi : ℂ)) := by
    have hstep : (((Complex.exp ((r.phase d w : ℂ) * Complex.I)).arg : ℂ)) * Complex.I =
        ((r.phase d w : ℂ) + (n : ℂ) * (2 * (Real.pi : ℂ))) * Complex.I := by
      rw [hn]
      ring
    exact mul_right_cancel₀ Complex.I_ne_zero hstep
  have hreal : (Complex.exp ((r.phase d w : ℂ) * Complex.I)).arg =
      r.phase d w + (n : ℝ) * (2 * Real.pi) := by
    exact_mod_cast hn'
  rw [hreal]
  ring

/-- Witness for C6: the round trip restores the amplitude and the phase up
to a multiple of `2 pi` on a concrete grid point. -/
theorem C6_witness :
    (Rao.from_xarray_nocomplex (gridC6w.to_xarray_nocomplex).2 MotionMode.HEAVE).wave_direction =
      gridC6w.wave_direction ∧
    (Rao.from_xarray_nocomplex (gridC6w.to_xarray_nocomplex).2 MotionMode.HEAVE).omega =
      gridC6w.omega ∧
    (Rao.from_xarray_nocomplex (gridC6w.to_xarray_nocomplex).2 MotionMode.HEAVE).amplitude 0 2 =
      gridC6w.amplitude 0 2 ∧
    ∃ k : ℤ, (Rao.from_xarray_nocomplex (gridC6w.to_xarray_nocomplex).2 MotionMode.HEAVE).phase 0 2 =
      gridC6w.phase 0 2 + 2 * Real.pi * k := by
  rcases C6_nocomplex_roundtrip gridC6w MotionMode.HEAVE 0 2 (by norm_num [gridC6w]) with
    ⟨h1, h2, h3, h4⟩
  exact ⟨h1, h2, h3, h4 (by norm_num [gridC6w])⟩

/-- Counterexample for C6 as stated: the stored phase `2 pi` comes back
from the round trip as the principal value 0, so the phase is not
reproduced exactly. -/
theorem C6_counterexample :
    (Rao.from_xarray_nocomplex (gridC6.to_xarray_nocomplex).2 MotionMode.HEAVE).phase 0 0 = 0 ∧
    gridC6.phase 0 0 = 2 * Real.pi ∧ (2 * Real.pi : ℝ) ≠ 0 := by
  refine ⟨?_, rfl, by positivity⟩
  show Complex.arg
    ((((gridC6.amplitude 0 0 : ℂ) * Complex.exp ((gridC6.phase 0 0 : ℂ) * Complex.I)).re : ℂ) +
      (((gridC6.amplitude 0 0 : ℂ) * Complex.exp ((gridC6.phase 0 0 : ℂ) * Complex.I)).im : ℂ) *
        Complex.I) = 0
  rw [Complex.re_add_im]
  have h1 : ((gridC6.amplitude 0 0 : ℝ) : ℂ) = 1 := by norm_num [gridC6]
  have h2 : ((gridC6.phase 0 0 : ℝ) : ℂ) * Complex.I = 2 * (Real.pi : ℂ) * Complex.I := by
    show ((2 * Real.pi : ℝ) : ℂ) * Complex.I = _
    push_cast
    ring
  rw [h1, h2, Complex.exp_two_pi_mul_I, mul_one, Complex.arg_one]

/-- Frequency regridding preserves amplitude nonnegativity: every
interpolated value is a convex combination of boundary-duplicated grid
samples. -/
theorem ampNonNeg_regrid_omega (r : Rao) (hnn : Rao.AmpNonNeg r) (hne : r.omega ≠ [])
    (new : List ℚ) : Rao.AmpNonNeg (r.regrid_omega new) := by
  intro d hd w _
  have hd' : d ∈ r.wave_direction := hd
  show 0 ≤ interp1 (fun x => (Rao.expand_omega_dim_const r new).amplitude d x)
    (List.insertionSort (fun a b => a ≤ b) (Rao.expand_omega_dim_const r new).omega) w
  apply interp1_nonneg
  intro x hx
  have hx' : x ∈ (Rao.expand_omega_dim_const r new).omega :=
    (List.perm_insertionSort (fun a b => a ≤ b) _).mem_iff.mp hx
  have homega : (Rao.expand_omega_dim_const r new).omega =
      new.filter (fun v => v < listMin r.omega) ++ r.omega ++
        new.filter (fun v => listMax r.omega < v) := rfl
  rw [homega] at hx'
  have hampx : (Rao.expand_omega_dim_const r new).amplitude d x =
      (if x < listMin r.omega then r.amplitude d (listMin r.omega)
       else if listMax r.omega < x then r.amplitude d (listMax r.omega)
       else r.amplitude d x) := rfl
  rw [hampx]
  have hmnmem : listMin r.omega ∈ r.omega := listMin_mem hne
  have hmxmem : listMax r.omega ∈ r.omega := listMax_mem hne
  rcases List.mem_append.mp hx' with hx2 | hhigh
  · rcases List.mem_append.mp hx2 with hlow | hmid
    · have hxlt : x < listMin r.omega := by simpa using (List.mem_filter.mp hlow).2
      rw [if_pos hxlt]
      exact hnn d hd' _ hmnmem
    · have h1 : ¬(x < listMin r.omega) := not_lt.mpr (listMin_le hmid)
      have h2 : ¬(listMax r.omega < x) := not_lt.mpr (le_listMax hmid)
      rw [if_neg h1, if_neg h2]
      exact hnn d hd' x hmid
  · have hxgt : listMax r.omega < x := by simpa using (List.mem_filter.mp hhigh).2
    have h1 : ¬(x < listMin r.omega) :=
      not_lt.mpr (le_of_lt (lt_of_le_of_lt (listMin_le hmxmem) hxgt))
    rw [if_neg h1, if_pos hxgt]
    exact hnn d hd' _ hmxmem

/-- Heading regridding preserves amplitude nonnegativity. -/
theorem ampNonNeg_regrid_direction (r : Rao) (hnn : Rao.AmpNonNeg r)
    (hne : r.wave_direction ≠ []) (new : List ℚ) :
    Rao.AmpNonNeg (r.regrid_direction new) := by
  intro d _ w hw
  have hw' : w ∈ r.omega := hw
  show 0 ≤ interp1 (fun x => (Rao.expand_direction_to_full_range r).amplitude x w)
    (List.insertionSort (fun a b => a ≤ b)
      (Rao.expand_direction_to_full_range r).wave_direction) d
  apply interp1_nonneg
  intro x hx
  have hx' : x ∈ (Rao.expand_direction_to_full_range r).wave_direction :=
    (List.perm_insertionSort (fun a b => a ≤ b) _).mem_iff.mp hx
  have hwdE : (Rao.expand_direction_to_full_range r).wave_direction =
      (listMax r.wave_direction - 360) :: r.wave_direction ++
        [listMin r.wave_direction + 360] := rfl
  have hampE : (Rao.expand_direction_to_full_range r).amplitude x w =
      (if x = listMax r.wave_direction - 360 then r.amplitude (listMax r.wave_direction) w
       else if x = listMin r.wave_direction + 360 then r.amplitude (listMin r.wave_direction) w
       else r.amplitude x w) := rfl
  rw [hampE]
  by_cases hx1 : x = listMax r.wave_direction - 360
  · rw [if_pos hx1]
    exact hnn _ (listMax_mem hne) w hw'
  · rw [if_neg hx1]
    by_cases hx2 : x = listMin r.wave_direction + 360
    · rw [if_pos hx2]
      exact hnn _ (listMin_mem hne) w hw'
    · rw [if_neg hx2]
      rw [hwdE] at hx'
      rcases List.mem_append.mp hx' with h | h
      · rcases List.mem_cons.mp h with h | h
        · exact absurd h hx1
        · exact hnn x h w hw'
      · exact absurd (List.mem_singleton.mp h) hx2

/-- Every amplitude value of the symmetry fold is a copy of some amplitude
value of the starting grid taken at a heading of the captured axis. -/
theorem foldl_symStep_amp_source (orig : List ℚ) (opp : Bool) (r : Rao) :
    ∀ (l : List ℚ) (st : Rao), (∀ x ∈ l, x ∈ orig) →
      (∀ x ∈ orig, x ∈ st.wave_direction) →
      (∀ d ∈ st.wave_direction, ∀ w, ∃ h ∈ orig, st.amplitude d w = r.amplitude h w) →
      ∀ d ∈ (l.foldl (Rao.symStep orig opp) st).wave_direction, ∀ w,
        ∃ h ∈ orig, (l.foldl (Rao.symStep orig opp) st).amplitude d w = r.amplitude h w := by
  intro l
  induction l with
  | nil => intro st _ _ hinv; exact hinv
  | cons hd t ih =>
    intro st hsub horig hinv
    rw [List.foldl_cons]
    by_cases hc : mod360 (-hd) ∈ orig
    · have e1 : Rao.symStep orig opp st hd = st := by
        rw [Rao.symStep, if_pos hc]
      rw [e1]
      exact ih st (fun x hx => hsub x (List.mem_cons_of_mem _ hx)) horig hinv
    · have ewd : (Rao.symStep orig opp st hd).wave_direction =
          st.wave_direction ++ [mod360 (-hd)] := by
        simp [Rao.symStep, hc]
      have eamp : ∀ d w, (Rao.symStep orig opp st hd).amplitude d w =
          (if d = mod360 (-hd) then st.amplitude hd w else st.amplitude d w) := by
        intro d w
        simp [Rao.symStep, hc]
      apply ih
      · exact fun x hx => hsub x (List.mem_cons_of_mem _ hx)
      · intro x hx
        rw [ewd]
        exact List.mem_append_left _ (horig x hx)
      · intro d hdmem w
        rw [eamp]
        by_cases hdc : d = mod360 (-hd)
        · rw [if_pos hdc]
          have hhd : hd ∈ orig := hsub hd (List.mem_cons_self _ _)
          exact hinv hd (horig hd hhd) w
        · rw [if_neg hdc]
          rw [ewd] at hdmem
          rcases List.mem_append.mp hdmem with h | h
          · exact hinv d h w
          · exact absurd (List.mem_singleton.mp h) hdc

/-- Symmetry expansion preserves amplitude nonnegativity: every column of
the result copies a column of the input. -/
theorem ampNonNeg_add_symmetry_xz (r : Rao) (hnn : Rao.AmpNonNeg r) :
    ∀ r', r.add_symmetry_xz = Except.ok r' → Rao.AmpNonNeg r' := by
  intro r' hok
  cases hm : r.mode with
  | none =>
    rw [Rao.add_symmetry_xz, hm] at hok
    cases hok
  | some m =>
    rw [add_symmetry_xz_ok r m hm] at hok
    injection hok with h'
    rw [← h']
    intro d hd w hw
    have hw2 : w ∈ (r.wave_direction.foldl
        (Rao.symStep r.wave_direction (Rao.symOpp m)) r).omega := hw
    rw [Rao.foldl_symStep_omega] at hw2
    have hd' : d ∈ (r.wave_direction.foldl
        (Rao.symStep r.wave_direction (Rao.symOpp m)) r).wave_direction :=
      (List.perm_insertionSort (fun a b => a ≤ b) _).mem_iff.mp hd
    rcases foldl_symStep_amp_source r.wave_direction (Rao.symOpp m) r r.wave_direction r
        (fun x hx => hx) (fun x hx => hx) (fun d hd w => ⟨d, hd, rfl⟩) d hd' w with
      ⟨h, hh, heq⟩
    show 0 ≤ (r.wave_direction.foldl
      (Rao.symStep r.wave_direction (Rao.symOpp m)) r).amplitude d w
    rw [heq]
    exact hnn h hh w hw2

/-- C9 (amended): amplitude nonnegativity is preserved by every mutating
operation — scaling by a nonnegative factor, regridding either axis of a
nonempty grid, point insertion, and symmetry expansion — but construction
from raw arrays performs no validation and accepts negative amplitudes. -/
theorem C9_amp_nonneg_invariant (r : Rao) (f : ℝ) :
    (Rao.AmpNonNeg r → 0 ≤ f →
      ∃ r', r.scale f = Except.ok r' ∧ Rao.AmpNonNeg r') ∧
    (Rao.AmpNonNeg r → r.omega ≠ [] →
      ∀ new, Rao.AmpNonNeg (r.regrid_omega new)) ∧
    (Rao.AmpNonNeg r → r.wave_direction ≠ [] →
      ∀ new, Rao.AmpNonNeg (r.regrid_direction new)) ∧
    (Rao.AmpNonNeg r → r.wave_direction ≠ [] →
      ∀ wd, Rao.AmpNonNeg (r.add_direction wd)) ∧
    (Rao.AmpNonNeg r → r.omega ≠ [] →
      ∀ om, Rao.AmpNonNeg (r.add_frequency om)) ∧
    (Rao.AmpNonNeg r → ∀ r', r.add_symmetry_xz = Except.ok r' → Rao.AmpNonNeg r') := by
  refine ⟨?_, ?_, ?_, ?_, ?_, ?_⟩
  · intro hnn hf
    refine ⟨_, by rw [Rao.scale, if_neg (not_lt.mpr hf)], ?_⟩
    intro d hd w hw
    have hd' : d ∈ r.wave_direction := hd
    have hw' : w ∈ r.omega := hw
    show 0 ≤ r.amplitude d w * f
    exact mul_nonneg (hnn d hd' w hw') hf
  · exact fun hnn hne => ampNonNeg_regrid_omega r hnn hne
  · exact fun hnn hne => ampNonNeg_regrid_direction r hnn hne
  · intro hnn hne wd
    rw [Rao.add_direction]
    by_cases hc : wd ∈ r.wave_direction
    · rw [if_pos hc]
      exact hnn
    · rw [if_neg hc]
      exact ampNonNeg_regrid_direction r hnn hne _
  · intro hnn hne om
    rw [Rao.add_frequency]
    by_cases hc : om ∈ r.omega
    · rw [if_pos hc]
      exact hnn
    · rw [if_neg hc]
      exact ampNonNeg_regrid_omega r hnn hne _
  · exact fun hnn => ampNonNeg_add_symmetry_xz r hnn

/-- Witness for C9: scaling the fresh all-zero grid by 2 succeeds and the
result still has nonnegative amplitudes. -/
theorem C9_witness :
    ∃ r', Rao.init.scale 2 = Except.ok r' ∧ Rao.AmpNonNeg r' :=
  (C9_amp_nonneg_invariant Rao.init 2).1 (fun d _ w _ => le_refl 0) (by norm_num)

/-- Counterexample for C9 as stated: `set_data` accepts a negative
amplitude array without any rejection, producing a grid carrying a
negative amplitude at a grid point. -/
theorem C9_counterexample :
    (Rao.init.set_data [0] [1] (fun _ _ => (-1:ℝ)) (fun _ _ => 0) Option.none).amplitude 0 1 =
      -1 ∧ ((-1:ℝ) < 0) :=
  ⟨rfl, by norm_num⟩

end Mafredo
